import Mathlib

/-!
Verification of the coordinator/worker job-queue engine of the
`hacker-news-data` crawler.

The definitions below are a shallow embedding of the Python sources:

* `src/dispatcher.py` — `populate_job_chunks`, `reset_stale_jobs`,
  the `CHUNK_SIZE` and `STALE_JOB_TIMEOUT_MINUTES` configuration;
* `src/worker.py` — `fetch_item_async`, `store_batch_async`,
  `claim_job_async`, `complete_job_async` and the per-job loop of
  `worker_main_async`, with the `CONCURRENT_REQUESTS` and `BATCH_SIZE`
  configuration.

Machine integers are modelled as `Nat`/`Int` (no overflow is relevant:
Python integers are unbounded and the database columns are 64-bit),
wall-clock timestamps as abstract `Int` instants, and the database
tables as lists of rows.  Fallible operations return `Except`/`Option`.
-/

namespace HN

/-- Configuration constant `CHUNK_SIZE = 1000` from `src/dispatcher.py`. -/
def CHUNK_SIZE : Nat := 1000

/-- Configuration constant `STALE_JOB_TIMEOUT_MINUTES = 15` from `src/dispatcher.py`. -/
def STALE_JOB_TIMEOUT_MINUTES : Int := 15

/-- Configuration constant `CONCURRENT_REQUESTS = 300` from `src/worker.py`
(line 14).  The source comment describes it as "How many items a single
worker will try to download at the same time." -/
def CONCURRENT_REQUESTS : Nat := 300

/-- Configuration constant `BATCH_SIZE = 1000` from `src/worker.py` (line 16). -/
def BATCH_SIZE : Nat := 1000

/-- Number of elements of Python `range(start, stop, step)` for a positive
`step`: `ceil((stop - start) / step)` when `start < stop`, else `0`. -/
def pyRangeLen (start stop step : Nat) : Nat :=
  if start < stop then (stop - start + step - 1) / step else 0

/-- Python `range(start, stop, step)` for a positive `step`, as the list
`[start, start + step, ...]` of all values below `stop`. -/
def pyRange (start stop step : Nat) : List Nat :=
  (List.range (pyRangeLen start stop step)).map (fun k => start + k * step)

/-- The chunk list built by `populate_job_chunks` in `src/dispatcher.py`
(lines 81-83): `for i in range(1, max_id, CHUNK_SIZE)` append
`(i, min(i + CHUNK_SIZE - 1, max_id))`.  The chunk size is kept as a
parameter; the dispatcher instantiates it with `CHUNK_SIZE`. -/
def chunksToInsert (maxId chunkSize : Nat) : List (Nat × Nat) :=
  (pyRange 1 maxId chunkSize).map (fun i => (i, min (i + chunkSize - 1) maxId))

/-! ## The job-queue table -/

/-- The `status` column of `job_chunks` (schema in `src/dispatcher.py`,
lines 46-52); the code only ever writes the three values below. -/
inductive Status where
  | pending
  | in_progress
  | completed
deriving DecidableEq

/-- One row of the `job_chunks` table (`src/dispatcher.py`, lines 46-52).
The `created_at` column is never read or written by the engine after the
insert, so it is omitted; `updated_at` is an abstract integer instant. -/
structure ChunkRow where
  id : Nat
  start_id : Nat
  end_id : Nat
  status : Status
  worker_id : Option Nat
  updated_at : Int
deriving DecidableEq

/-- The rows selected by the inner query of `claim_job_async`
(`src/worker.py`, line 75): `status = 'pending'`, skipping rows whose
ids are currently row-locked by other transactions (`SKIP LOCKED`). -/
def claimCandidates (rows : List ChunkRow) (locked : List Nat) : List ChunkRow :=
  rows.filter (fun r => decide (r.status = Status.pending) && !(decide (r.id ∈ locked)))

/-- One comparison step of the minimum computation: keep whichever of the
new candidate and the best-so-far has the smaller `start_id`. -/
def minStartPick (r : ChunkRow) : Option ChunkRow → ChunkRow
  | none => r
  | some b => if b.start_id < r.start_id then b else r

/-- The row selected by `ORDER BY start_id ... LIMIT 1`: a row of minimal
`start_id` (`none` when the candidate list is empty).  Ties are broken in
favour of the earlier row, which over-specifies the SQL (the database may
pick any row of minimal `start_id`); no theorem below depends on the
tie-break. -/
def selectMinStart : List ChunkRow → Option ChunkRow
  | [] => none
  | r :: rs => some (minStartPick r (selectMinStart rs))

/-- The `SET` clause of the claim update (`src/worker.py`, line 73),
applied to every row whose `id` matches the selected one. -/
def claimUpdate (cid w : Nat) (now : Int) (r : ChunkRow) : ChunkRow :=
  if r.id = cid then
    { r with status := Status.in_progress, worker_id := some w, updated_at := now }
  else r

/-- `claim_job_async` from `src/worker.py` (lines 68-81): one transaction
that selects a pending row of minimal `start_id` among rows not locked by
other transactions, marks it `in_progress` for worker `w` with a fresh
`updated_at`, and returns its `(id, start_id, end_id)`; when the subquery
is empty the update matches nothing and `None` is returned. -/
def claim_job_async (rows : List ChunkRow) (locked : List Nat) (w : Nat) (now : Int) :
    List ChunkRow × Option (Nat × Nat × Nat) :=
  match selectMinStart (claimCandidates rows locked) with
  | none => (rows, none)
  | some c => (rows.map (claimUpdate c.id w now), some (c.id, c.start_id, c.end_id))

/-- `reset_stale_jobs` from `src/dispatcher.py` (lines 91-102): one update
setting `status = 'pending', worker_id = NULL` on every row with
`status = 'in_progress'` and `updated_at < now - threshold` (the SQL
interval `'15 minutes'`; time units are abstract here). -/
def reset_stale_jobs (rows : List ChunkRow) (now threshold : Int) : List ChunkRow :=
  rows.map (fun r =>
    if r.status = Status.in_progress ∧ r.updated_at < now - threshold then
      { r with status := Status.pending, worker_id := none }
    else r)

/-- `populate_job_chunks` from `src/dispatcher.py` (lines 67-89): if the
table has any rows, return immediately; otherwise query the upstream
`maxitem` endpoint (modelled by the `fetchedMaxId` argument, `none` for a
failed request) and insert one `pending` row per chunk of
`chunksToInsert`.  The ids of the inserted rows model the `SERIAL`
primary key; `created_at`/`updated_at` default to the insertion instant.
The boolean result records whether the upstream API was queried. -/
def populate_job_chunks (table : List ChunkRow) (fetchedMaxId : Option Nat) (now : Int) :
    List ChunkRow × Bool :=
  if 0 < table.length then (table, false)
  else
    match fetchedMaxId with
    | none => (table, true)
    | some maxId =>
      (table ++ (chunksToInsert maxId CHUNK_SIZE).enum.map
        (fun p => ⟨p.1 + 1, p.2.1, p.2.2, Status.pending, none, now⟩), true)

/-! ## JSON values, item payloads and the `items` table -/

/-- Python/JSON values as they occur in item payloads: `None`, booleans,
integers, strings and lists.  (Nested objects do not occur in the fields
the worker stores.) -/
inductive Value where
  | null
  | bool (b : Bool)
  | int (n : Int)
  | str (s : String)
  | list (xs : List Value)

mutual

/-- Decidable equality of values (the automatic derivation does not
handle the nested list). -/
def decEqValue : (a b : Value) → Decidable (a = b)
  | Value.null, Value.null => isTrue rfl
  | Value.null, Value.bool _ => isFalse (fun h => Value.noConfusion h)
  | Value.null, Value.int _ => isFalse (fun h => Value.noConfusion h)
  | Value.null, Value.str _ => isFalse (fun h => Value.noConfusion h)
  | Value.null, Value.list _ => isFalse (fun h => Value.noConfusion h)
  | Value.bool _, Value.null => isFalse (fun h => Value.noConfusion h)
  | Value.bool x, Value.bool y =>
    if h : x = y then isTrue (by rw [h]) else isFalse (fun hh => h (by injection hh))
  | Value.bool _, Value.int _ => isFalse (fun h => Value.noConfusion h)
  | Value.bool _, Value.str _ => isFalse (fun h => Value.noConfusion h)
  | Value.bool _, Value.list _ => isFalse (fun h => Value.noConfusion h)
  | Value.int _, Value.null => isFalse (fun h => Value.noConfusion h)
  | Value.int _, Value.bool _ => isFalse (fun h => Value.noConfusion h)
  | Value.int x, Value.int y =>
    if h : x = y then isTrue (by rw [h]) else isFalse (fun hh => h (by injection hh))
  | Value.int _, Value.str _ => isFalse (fun h => Value.noConfusion h)
  | Value.int _, Value.list _ => isFalse (fun h => Value.noConfusion h)
  | Value.str _, Value.null => isFalse (fun h => Value.noConfusion h)
  | Value.str _, Value.bool _ => isFalse (fun h => Value.noConfusion h)
  | Value.str _, Value.int _ => isFalse (fun h => Value.noConfusion h)
  | Value.str x, Value.str y =>
    if h : x = y then isTrue (by rw [h]) else isFalse (fun hh => h (by injection hh))
  | Value.str _, Value.list _ => isFalse (fun h => Value.noConfusion h)
  | Value.list _, Value.null => isFalse (fun h => Value.noConfusion h)
  | Value.list _, Value.bool _ => isFalse (fun h => Value.noConfusion h)
  | Value.list _, Value.int _ => isFalse (fun h => Value.noConfusion h)
  | Value.list _, Value.str _ => isFalse (fun h => Value.noConfusion h)
  | Value.list xs, Value.list ys =>
    match decEqValueList xs ys with
    | isTrue h => isTrue (by rw [h])
    | isFalse h => isFalse (fun hh => h (by injection hh))

/-- Decidable equality of lists of values, used by `decEqValue`. -/
def decEqValueList : (xs ys : List Value) → Decidable (xs = ys)
  | [], [] => isTrue rfl
  | [], _ :: _ => isFalse (fun h => List.noConfusion h)
  | _ :: _, [] => isFalse (fun h => List.noConfusion h)
  | x :: xs, y :: ys =>
    match decEqValue x y, decEqValueList xs ys with
    | isTrue h1, isTrue h2 => isTrue (by rw [h1, h2])
    | isFalse h1, _ => isFalse (fun h => h1 (by cases h; rfl))
    | isTrue _, isFalse h2 => isFalse (fun h => h2 (by cases h; rfl))

end

instance : DecidableEq Value := decEqValue

/-- Python truthiness of a value (`if item.get(col)`, `if res`):
`None`, `False`, `0`, the empty string and the empty list are falsy. -/
def truthy : Value → Bool
  | Value.null => false
  | Value.bool b => b
  | Value.int n => decide (n ≠ 0)
  | Value.str s => decide (s ≠ "")
  | Value.list xs => !xs.isEmpty

mutual

/-- `json.dumps` on a value, with Python's default separators.  String
escaping is not modelled: the worker only ever serializes the `kids`
field, a list of integers. -/
def jsonDumpsVal : Value → String
  | Value.null => "null"
  | Value.bool true => "true"
  | Value.bool false => "false"
  | Value.int n => toString n
  | Value.str s => "\"" ++ s ++ "\""
  | Value.list xs => "[" ++ String.intercalate ", " (jsonDumpsList xs) ++ "]"

/-- Serialization of the elements of a list value, used by `jsonDumpsVal`. -/
def jsonDumpsList : List Value → List String
  | [] => []
  | v :: vs => jsonDumpsVal v :: jsonDumpsList vs

end

/-- A fetched item payload: a JSON object, modelled as an association
list from field names to values (Python dicts have unique keys; lookup
takes the first binding). -/
abbrev Item := List (String × Value)

/-- Python `item.get(k)`: the bound value, or `None` when the key is absent. -/
def pyGet (it : Item) (k : String) : Value := (it.lookup k).getD Value.null

/-- Python `'id' in item`: key membership in the dict. -/
def hasIdKey (it : Item) : Bool := (it.lookup "id").isSome

/-- The column list of `store_batch_async` (`src/worker.py`, line 48). -/
def columns : List String :=
  ["id", "type", "by", "time", "text", "url", "title", "score",
   "descendants", "parent", "kids", "deleted", "dead"]

/-- The value bound for one column of one item (`src/worker.py`, line 52):
`json.dumps(item.get(col)) if col == 'kids' and item.get(col) else item.get(col)`. -/
def rowValue (it : Item) (col : String) : Value :=
  if col = "kids" ∧ truthy (pyGet it col) = true then
    Value.str (jsonDumpsVal (pyGet it col))
  else pyGet it col

/-- The tuple of column values inserted for one item. -/
def rowOf (it : Item) : List Value := columns.map (rowValue it)

/-- The `items` table: a list of inserted rows (tuples of column values). -/
abbrev Table := List (List Value)

/-- The conflict key of a row: the value of its first column, `id`
(`ON CONFLICT (id)`). -/
def keyOf (row : List Value) : Option Value := row.head?

/-- One `INSERT ... ON CONFLICT (id) DO NOTHING`: append the row unless a
row with the same `id` value is already present. -/
def insertRow (t : Table) (row : List Value) : Table :=
  if ∃ r ∈ t, keyOf r = keyOf row then t else t ++ [row]

/-- `executemany` of the insert over a prepared list of rows: the inserts
run in order, each seeing the effect of the previous ones. -/
def insertAll (t : Table) (rows : List (List Value)) : Table :=
  rows.foldl insertRow t

/-- The `values_to_insert` list of `store_batch_async` (`src/worker.py`,
lines 51-54): one tuple per batch item that is truthy (a non-empty dict)
and has an `'id'` key. -/
def batchRows (batch : List Item) : List (List Value) :=
  (batch.filter (fun it => !it.isEmpty && hasIdKey it)).map rowOf

/-- `store_batch_async` from `src/worker.py` (lines 45-65): skip empty
batches, filter the payloads, and bulk-insert the surviving tuples with
upsert-on-conflict-do-nothing keyed on `id`. -/
def store_batch_async (t : Table) (batch : List Item) : Table :=
  if batch.isEmpty then t
  else if (batchRows batch).isEmpty then t
  else insertAll t (batchRows batch)

/-! ## The per-item fetch and the per-job loop of the worker -/

/-- The possible outcomes of one HTTP interaction of `fetch_item_async`
(`src/worker.py`, lines 32-42), classified by which Python exception, if
any, the steps of the body raise:

* `netError` — the GET itself fails (`aiohttp.ClientError`);
* `timeout` — the 10 s timeout fires (`asyncio.TimeoutError`);
* `badStatus` — a non-2xx response: `raise_for_status()` raises
  `aiohttp.ClientResponseError`, a subclass of `aiohttp.ClientError`;
* `badContentType` — `response.json()` rejects the content type:
  `aiohttp.ContentTypeError`, a subclass of `aiohttp.ClientError`;
* `badJsonBody` — the body has an acceptable content type but is not
  valid JSON: `json.loads` raises `json.JSONDecodeError`, a `ValueError`,
  which is neither an `aiohttp.ClientError` nor an
  `asyncio.TimeoutError`;
* `jsonNull` — the body is the JSON literal `null`;
* `jsonItem` — the body parses to a JSON object. -/
inductive HttpResult where
  | netError
  | timeout
  | badStatus
  | badContentType
  | badJsonBody
  | jsonNull
  | jsonItem (it : Item)

/-- An exception escaping `fetch_item_async`. -/
inductive PyError where
  | jsonDecodeError
deriving DecidableEq

/-- `fetch_item_async` from `src/worker.py` (lines 32-42): the `except`
clause catches `(aiohttp.ClientError, asyncio.TimeoutError)` and returns
`None`; a JSON `null` parses to Python `None`; a `json.JSONDecodeError`
is caught by neither handler and propagates. -/
def fetch_item_async : HttpResult → Except PyError (Option Item)
  | HttpResult.netError => Except.ok none
  | HttpResult.timeout => Except.ok none
  | HttpResult.badStatus => Except.ok none
  | HttpResult.badContentType => Except.ok none
  | HttpResult.badJsonBody => Except.error PyError.jsonDecodeError
  | HttpResult.jsonNull => Except.ok none
  | HttpResult.jsonItem it => Except.ok (some it)

/-- The fetch outcomes that the claim calls failures or absence: a
transient network error, a timeout, a non-2xx response, a content-type
parse failure, or a JSON `null`. -/
def noResultOutcome : HttpResult → Bool
  | HttpResult.netError => true
  | HttpResult.timeout => true
  | HttpResult.badStatus => true
  | HttpResult.badContentType => true
  | HttpResult.jsonNull => true
  | _ => false

/-- `asyncio.gather` over the fetches of one slice of ids: if every fetch
returns, the list of results in order; if any fetch raises, the gather
re-raises (the model propagates the leftmost error; the claims do not
depend on which one). `resp` gives the upstream outcome per item id. -/
def gatherFetch (resp : Nat → HttpResult) : List Nat → Except PyError (List (Option Item))
  | [] => Except.ok []
  | i :: is =>
    match fetch_item_async (resp i) with
    | Except.error e => Except.error e
    | Except.ok v =>
      match gatherFetch resp is with
      | Except.error e => Except.error e
      | Except.ok vs => Except.ok (v :: vs)

/-- The task slices of the per-job loop of `worker_main_async`
(`src/worker.py`, lines 110-111): `for i in range(0, len(tasks),
BATCH_SIZE): tasks[i:i+BATCH_SIZE]`. -/
def gatherGroups (ids : List Nat) : List (List Nat) :=
  (pyRange 0 ids.length BATCH_SIZE).map (fun i => (ids.drop i).take BATCH_SIZE)

/-- One iteration of the per-job loop (`src/worker.py`, lines 110-120):
gather the slice, and unless an exception is already propagating, filter
the falsy results and store the survivors.  The `Option PyError`
component models an exception unwinding the loop: once raised, later
iterations do not run. -/
def jobStep (resp : Nat → HttpResult) (acc : Table × Option PyError) (grp : List Nat) :
    Table × Option PyError :=
  match acc.2 with
  | some _ => acc
  | none =>
    match gatherFetch resp grp with
    | Except.error e => (acc.1, some e)
    | Except.ok results =>
      let valid := (results.filterMap id).filter (fun it => !it.isEmpty)
      (if valid.isEmpty then acc.1 else store_batch_async acc.1 valid, none)

/-- Folding the per-job loop over all slices, in order (a left fold of
`jobStep`). -/
def runGroups (resp : Nat → HttpResult) : List (List Nat) → Table × Option PyError → Table × Option PyError
  | [], acc => acc
  | g :: gs, acc => runGroups resp gs (jobStep resp acc g)

/-- The observable outcome of processing one claimed job. -/
structure JobOutcome where
  table : Table
  error : Option PyError
  completed : Bool

/-- The per-job body of `worker_main_async` (`src/worker.py`, lines
106-122) for the claimed range `[startId, endId]`: enumerate the ids,
gather them slice by slice storing valid results, and, if no exception
escaped, mark the job completed via `complete_job_async`.  `completed`
records whether `complete_job_async` ran. -/
def processJob (resp : Nat → HttpResult) (startId endId : Nat) (t0 : Table) : JobOutcome :=
  match runGroups resp (gatherGroups (List.range' startId (endId + 1 - startId))) (t0, none) with
  | (tbl, some e) => ⟨tbl, some e, false⟩
  | (tbl, none) => ⟨tbl, none, true⟩

/-- A concrete upstream behaviour used for evaluation: id 1 returns an
object carrying its own id, every other id fails with a network error. -/
def demoResp (i : Nat) : HttpResult :=
  if i = 1 then HttpResult.jsonItem [("id", Value.int 1)] else HttpResult.netError

/-! ## The top-level worker frame -/

/-- One turn of the claim loop of `worker_main_async` as seen from the
top-level frame: either the claim returned a job whose processing ran to
completion or raised, or the claim returned `None`. -/
inductive ClaimStep where
  | job (procError : Option PyError)
  | noJobs

/-- How the `while True` loop of `worker_main_async` ends. -/
inductive BodyResult where
  | normal
  | raised (e : PyError)

/-- Run the claim loop (`src/worker.py`, lines 96-132) over a sequence of
claim outcomes: stop normally when the claim returns `None` (or the
sequence is exhausted), stop with an exception when a job's processing
raises. -/
def runBody : List ClaimStep → BodyResult
  | [] => BodyResult.normal
  | ClaimStep.noJobs :: _ => BodyResult.normal
  | ClaimStep.job none :: rest => runBody rest
  | ClaimStep.job (some e) :: _ => BodyResult.raised e

/-- What escapes the top-level frame, and whether the store connection
was closed before it exits. -/
structure FrameExit where
  connClosed : Bool
  escaped : Bool

/-- The `try/except Exception/finally` discipline of `worker_main_async`
(`src/worker.py`, lines 93-138): a normal loop exit falls through to
`finally`, an `Exception` from the body is caught and logged and then
`finally` runs, and a `BaseException` (modelled by `interrupt`, e.g.
`KeyboardInterrupt`) skips the `except Exception` handler but still runs
`finally` before propagating.  In every case `finally` awaits
`conn.close()`. -/
def worker_main_async (steps : List ClaimStep) (interrupt : Bool) : FrameExit :=
  if interrupt then ⟨true, true⟩
  else
    match runBody steps with
    | BodyResult.normal => ⟨true, false⟩
    | BodyResult.raised _ => ⟨true, false⟩

/-! ## Helper lemmas about the idempotent insert -/

theorem mem_insertRow {t : Table} {row r0 : List Value} (h : r0 ∈ insertRow t row) :
    r0 ∈ t ∨ r0 = row := by
  unfold insertRow at h
  split at h
  · exact Or.inl h
  · rcases List.mem_append.mp h with h1 | h1
    · exact Or.inl h1
    · exact Or.inr (List.mem_singleton.mp h1)

theorem insertRow_mono {t : Table} {r0 : List Value} (row : List Value) (h : r0 ∈ t) :
    r0 ∈ insertRow t row := by
  unfold insertRow
  split
  · exact h
  · exact List.mem_append.mpr (Or.inl h)

theorem insertRow_key_self (t : Table) (row : List Value) :
    ∃ r ∈ insertRow t row, keyOf r = keyOf row := by
  unfold insertRow
  split
  · next h => exact h
  · exact ⟨row, List.mem_append.mpr (Or.inr (List.mem_singleton.mpr rfl)), rfl⟩

theorem insertRow_noop {t : Table} {row : List Value} (h : ∃ r ∈ t, keyOf r = keyOf row) :
    insertRow t row = t := by
  unfold insertRow
  exact if_pos h

theorem insertAll_cons (t : Table) (row : List Value) (rows : List (List Value)) :
    insertAll t (row :: rows) = insertAll (insertRow t row) rows := rfl

theorem insertAll_mono {t : Table} {r0 : List Value} (rows : List (List Value)) (h : r0 ∈ t) :
    r0 ∈ insertAll t rows := by
  induction rows generalizing t with
  | nil => exact h
  | cons row rows ih => exact ih (insertRow_mono row h)

theorem mem_insertAll {t : Table} {rows : List (List Value)} {r0 : List Value}
    (h : r0 ∈ insertAll t rows) : r0 ∈ t ∨ r0 ∈ rows := by
  induction rows generalizing t with
  | nil => exact Or.inl h
  | cons row rows ih =>
    rcases ih h with h1 | h1
    · rcases mem_insertRow h1 with h2 | h2
      · exact Or.inl h2
      · exact Or.inr (h2 ▸ List.mem_cons_self row rows)
    · exact Or.inr (List.mem_cons_of_mem row h1)

theorem insertAll_keys {rows : List (List Value)} (t : Table) :
    ∀ row ∈ rows, ∃ r ∈ insertAll t rows, keyOf r = keyOf row := by
  induction rows generalizing t with
  | nil => intro row h; cases h
  | cons row1 rows ih =>
    intro row h
    rcases List.mem_cons.mp h with h1 | h1
    · subst h1
      obtain ⟨r, hr, hk⟩ := insertRow_key_self t row
      exact ⟨r, insertAll_mono rows hr, hk⟩
    · exact ih (insertRow t row1) row h1

theorem insertAll_noop {t : Table} {rows : List (List Value)}
    (h : ∀ row ∈ rows, ∃ r ∈ t, keyOf r = keyOf row) : insertAll t rows = t := by
  induction rows with
  | nil => rfl
  | cons row rows ih =>
    rw [insertAll_cons, insertRow_noop (h row (List.mem_cons_self row rows))]
    exact ih (fun r hr => h r (List.mem_cons_of_mem row hr))

theorem store_batch_async_eq (t : Table) (batch : List Item) :
    store_batch_async t batch = insertAll t (batchRows batch) := by
  unfold store_batch_async
  split
  · next h =>
    rw [List.isEmpty_iff.mp h]
    rfl
  · split
    · next h =>
      rw [List.isEmpty_iff.mp h]
      rfl
    · rfl

/-! ## Helper lemmas about the claim selection -/

theorem selectMinStart_mem : ∀ {rs : List ChunkRow} {c : ChunkRow},
    selectMinStart rs = some c → c ∈ rs := by
  intro rs
  induction rs with
  | nil => intro c h; cases h
  | cons r rs ih =>
    intro c h
    have h2 : minStartPick r (selectMinStart rs) = c := by
      have := h
      unfold selectMinStart at this
      exact Option.some.inj this
    cases hs : selectMinStart rs with
    | none =>
      rw [hs] at h2
      simp only [minStartPick] at h2
      exact h2 ▸ List.mem_cons_self r rs
    | some b =>
      rw [hs] at h2
      simp only [minStartPick] at h2
      by_cases hlt : b.start_id < r.start_id
      · rw [if_pos hlt] at h2
        exact h2 ▸ List.mem_cons_of_mem r (ih hs)
      · rw [if_neg hlt] at h2
        exact h2 ▸ List.mem_cons_self r rs

theorem selectMinStart_min : ∀ {rs : List ChunkRow} {c : ChunkRow},
    selectMinStart rs = some c → ∀ x ∈ rs, c.start_id ≤ x.start_id := by
  intro rs
  induction rs with
  | nil => intro c h; cases h
  | cons r rs ih =>
    intro c h x hx
    have h2 : minStartPick r (selectMinStart rs) = c := by
      have := h
      unfold selectMinStart at this
      exact Option.some.inj this
    cases hs : selectMinStart rs with
    | none =>
      have hnil : rs = [] := by
        cases rs with
        | nil => rfl
        | cons a as => unfold selectMinStart at hs; cases hs
      rw [hs] at h2
      simp only [minStartPick] at h2
      subst hnil
      rcases List.mem_cons.mp hx with h3 | h3
      · rw [← h2, h3]
      · cases h3
    | some b =>
      rw [hs] at h2
      simp only [minStartPick] at h2
      rcases List.mem_cons.mp hx with h3 | h3
      · subst h3
        by_cases hlt : b.start_id < x.start_id
        · rw [if_pos hlt] at h2
          exact h2 ▸ Nat.le_of_lt hlt
        · rw [if_neg hlt] at h2
          exact h2 ▸ Nat.le_refl _
      · have hb := ih hs x h3
        by_cases hlt : b.start_id < r.start_id
        · rw [if_pos hlt] at h2
          exact h2 ▸ hb
        · rw [if_neg hlt] at h2
          exact h2 ▸ Nat.le_trans (Nat.not_lt.mp hlt) hb

theorem mem_claimCandidates {rows : List ChunkRow} {locked : List Nat} {r : ChunkRow} :
    r ∈ claimCandidates rows locked ↔
      r ∈ rows ∧ r.status = Status.pending ∧ r.id ∉ locked := by
  simp [claimCandidates, List.mem_filter, and_assoc]

/-! ## Helper lemma about populate -/

theorem populate_nonempty (table : List ChunkRow) (f : Option Nat) (now : Int)
    (h : table ≠ []) : populate_job_chunks table f now = (table, false) := by
  unfold populate_job_chunks
  rw [if_pos (List.length_pos.mpr h)]

/-! ## The claims -/

/-- C1.  The claim says that for every `max_id ≥ 1` and `chunk_size ≥ 1`
the populate step covers exactly `[1..max_id]` with the last chunk ending
at `max_id`.  The code iterates `range(1, max_id, CHUNK_SIZE)`, whose
stop bound is exclusive: at `max_id = 10, chunk_size = 3` (the spec's own
scenario S1) the produced chunks are `(1,3) (4,6) (7,9)` — id `10` is in
no chunk and no chunk ends at `10` — and at `max_id = 1` no chunk is
produced at all, so id `1` is never covered. -/
theorem populate_chunks_miss_max_id :
    chunksToInsert 10 3 = [(1, 3), (4, 6), (7, 9)] ∧
    (∀ c ∈ chunksToInsert 10 3, ¬(c.1 ≤ 10 ∧ 10 ≤ c.2)) ∧
    chunksToInsert 1 CHUNK_SIZE = [] := by
  decide

/-- C5.  The claim says at most `CONCURRENT_REQUESTS` (300) fetches are in
flight at any moment.  The per-job loop of `worker_main_async` gathers the
fetch tasks in slices of `BATCH_SIZE` (1000) — `CONCURRENT_REQUESTS` is
never read — so a claimed chunk of `CHUNK_SIZE` (1000) ids, the size the
dispatcher always creates, puts a whole slice of 1000 concurrent fetches
in flight, exceeding the configured bound. -/
theorem gather_exceeds_concurrent_requests :
    ∃ g ∈ gatherGroups (List.range' 1 CHUNK_SIZE), CONCURRENT_REQUESTS < g.length := by
  have hb : BATCH_SIZE = 1000 := rfl
  have hc : CHUNK_SIZE = 1000 := rfl
  have hlen : (List.range' 1 CHUNK_SIZE).length = 1000 := by rw [List.length_range', hc]
  have hpy : pyRange 0 1000 1000 = [0] := rfl
  refine ⟨List.range' 1 CHUNK_SIZE, ?_, ?_⟩
  · have hgg : gatherGroups (List.range' 1 CHUNK_SIZE) = [List.range' 1 CHUNK_SIZE] := by
      unfold gatherGroups
      rw [hlen, hb, hpy]
      simp only [List.map_cons, List.map_nil, List.drop_zero]
      rw [List.take_of_length_le (le_of_eq hlen)]
    rw [hgg]
    exact List.mem_singleton.mpr rfl
  · rw [List.length_range']
    decide

/-- C7.  `populate_job_chunks` is a no-op whenever the chunk table is
non-empty — it returns before querying the upstream API (the boolean
records whether the API was queried) — so for a fixed upstream answer a
second run leaves the table exactly as the first run left it. -/
theorem populate_job_chunks_idempotent (table : List ChunkRow) (f : Option Nat) (now : Int) :
    (table ≠ [] → populate_job_chunks table f now = (table, false)) ∧
    (populate_job_chunks (populate_job_chunks table f now).1 f now).1 =
      (populate_job_chunks table f now).1 := by
  refine ⟨populate_nonempty table f now, ?_⟩
  by_cases h : table = []
  · subst h
    by_cases h2 : (populate_job_chunks [] f now).1 = []
    · rw [h2]
      exact h2
    · rw [populate_nonempty _ f now h2]
  · rw [populate_nonempty table f now h, populate_nonempty table f now h]

/-- Witness for C7 at a concrete non-empty table. -/
theorem populate_job_chunks_idempotent_witness :
    populate_job_chunks [⟨1, 1, 1000, Status.pending, none, 0⟩] (some 5000) 7 =
      ([⟨1, 1, 1000, Status.pending, none, 0⟩], false) :=
  (populate_job_chunks_idempotent [⟨1, 1, 1000, Status.pending, none, 0⟩] (some 5000) 7).1
    (by decide)

/-- C2.  The claim primitive, run as one transaction over the queue state
(`rows` with the ids in `locked` row-locked by other transactions):
when no claimable pending row exists, nothing changes and the sentinel
`none` is returned; when `(cid, s, e)` is returned, it is the
`(id, start_id, end_id)` of a pending unlocked row of minimal `start_id`
among the pending unlocked rows, and the new state updates exactly the
rows with that id to `in_progress`, owner `w`, `updated_at = now`
(`claimUpdate`), leaving every other row unchanged. -/
theorem claim_job_async_correct (rows : List ChunkRow) (locked : List Nat) (w : Nat) (now : Int) :
    ((∀ r ∈ rows, ¬(r.status = Status.pending ∧ r.id ∉ locked)) →
      claim_job_async rows locked w now = (rows, none)) ∧
    (∀ cid s e, (claim_job_async rows locked w now).2 = some (cid, s, e) →
      (∃ c ∈ rows, c.id = cid ∧ c.start_id = s ∧ c.end_id = e ∧
        c.status = Status.pending ∧ c.id ∉ locked ∧
        ∀ r ∈ rows, r.status = Status.pending → r.id ∉ locked → s ≤ r.start_id) ∧
      (claim_job_async rows locked w now).1 = rows.map (claimUpdate cid w now)) := by
  cases hsel : selectMinStart (claimCandidates rows locked) with
  | none =>
    constructor
    · intro _
      simp [claim_job_async, hsel]
    · intro cid s e h
      simp [claim_job_async, hsel] at h
  | some c =>
    have hc := mem_claimCandidates.mp (selectMinStart_mem hsel)
    constructor
    · intro hnone
      exact absurd ⟨hc.2.1, hc.2.2⟩ (hnone c hc.1)
    · intro cid s e h
      have h2 : (claim_job_async rows locked w now).2 = some (c.id, c.start_id, c.end_id) := by
        simp [claim_job_async, hsel]
      rw [h] at h2
      have h3 : cid = c.id ∧ s = c.start_id ∧ e = c.end_id := by
        have := Option.some.inj h2
        exact ⟨congrArg (fun p => p.1) this,
          congrArg (fun p => p.2.1) this, congrArg (fun p => p.2.2) this⟩
      obtain ⟨hcid, hs, he⟩ := h3
      constructor
      · refine ⟨c, hc.1, hcid.symm, hs.symm, he.symm, hc.2.1, hc.2.2, ?_⟩
        intro r hr hp hl
        have hrc : r ∈ claimCandidates rows locked := mem_claimCandidates.mpr ⟨hr, hp, hl⟩
        rw [hs]
        exact selectMinStart_min hsel r hrc
      · rw [hcid]
        simp [claim_job_async, hsel]

/-- Witness for C2: with row 2 locked by another transaction, a claim
returns the remaining pending row (id 1, range 5-9), which is then the
minimal claimable row. -/
theorem claim_job_async_correct_witness :
    (∃ c ∈ [(⟨1, 5, 9, Status.pending, none, 0⟩ : ChunkRow),
            ⟨2, 1, 4, Status.pending, none, 0⟩],
      c.id = 1 ∧ c.start_id = 5 ∧ c.end_id = 9 ∧
      c.status = Status.pending ∧ c.id ∉ [2] ∧
      ∀ r ∈ [(⟨1, 5, 9, Status.pending, none, 0⟩ : ChunkRow),
             ⟨2, 1, 4, Status.pending, none, 0⟩],
        r.status = Status.pending → r.id ∉ [2] → 5 ≤ r.start_id) ∧
    (claim_job_async [(⟨1, 5, 9, Status.pending, none, 0⟩ : ChunkRow),
        ⟨2, 1, 4, Status.pending, none, 0⟩] [2] 7 100).1 =
      [(⟨1, 5, 9, Status.pending, none, 0⟩ : ChunkRow),
       ⟨2, 1, 4, Status.pending, none, 0⟩].map (claimUpdate 1 7 100) :=
  (claim_job_async_correct [(⟨1, 5, 9, Status.pending, none, 0⟩ : ChunkRow),
      ⟨2, 1, 4, Status.pending, none, 0⟩] [2] 7 100).2 1 5 9 (by decide)

/-- C4.  `reset_stale_jobs` pairs each input row with its output row:
a `completed` row is unchanged; an `in_progress` row with
`updated_at < now - threshold` becomes `pending` with `worker_id`
cleared and every other column unchanged; any row not matching the
`WHERE` clause is unchanged — so the rows reset are exactly the stale
in-progress ones, on every queue state. -/
theorem reset_stale_jobs_correct (rows : List ChunkRow) (now threshold : Int) :
    ∀ p ∈ List.zip rows (reset_stale_jobs rows now threshold),
      (p.1.status = Status.completed → p.2 = p.1) ∧
      (p.1.status = Status.in_progress ∧ p.1.updated_at < now - threshold →
        p.2.status = Status.pending ∧ p.2.worker_id = none ∧ p.2.id = p.1.id ∧
        p.2.start_id = p.1.start_id ∧ p.2.end_id = p.1.end_id ∧
        p.2.updated_at = p.1.updated_at) ∧
      (¬(p.1.status = Status.in_progress ∧ p.1.updated_at < now - threshold) → p.2 = p.1) := by
  unfold reset_stale_jobs
  induction rows with
  | nil => intro p hp; cases hp
  | cons r rs ih =>
    intro p hp
    rw [List.map_cons, List.zip_cons_cons] at hp
    rcases List.mem_cons.mp hp with h | h
    · subst h
      by_cases hcond : r.status = Status.in_progress ∧ r.updated_at < now - threshold
      · rw [if_pos hcond]
        refine ⟨?_, fun _ => ⟨rfl, rfl, rfl, rfl, rfl, rfl⟩, fun hn => absurd hcond hn⟩
        intro hcomp
        rw [hcomp] at hcond
        cases hcond.1
      · rw [if_neg hcond]
        exact ⟨fun _ => rfl, fun hc => absurd hc hcond, fun _ => rfl⟩
    · exact ih p h

/-- Witness for C4: a stale in-progress row is reset to pending with its
worker cleared, and a completed row is untouched. -/
theorem reset_stale_jobs_correct_witness :
    ((⟨2, 5, 9, Status.in_progress, some 3, 0⟩ : ChunkRow),
      (⟨2, 5, 9, Status.pending, none, 0⟩ : ChunkRow)) ∈
      List.zip [(⟨1, 1, 4, Status.completed, none, 0⟩ : ChunkRow),
                ⟨2, 5, 9, Status.in_progress, some 3, 0⟩]
        (reset_stale_jobs [(⟨1, 1, 4, Status.completed, none, 0⟩ : ChunkRow),
                ⟨2, 5, 9, Status.in_progress, some 3, 0⟩] 1000 60) ∧
    (⟨2, 5, 9, Status.pending, none, 0⟩ : ChunkRow).status = Status.pending ∧
    (⟨2, 5, 9, Status.pending, none, 0⟩ : ChunkRow).worker_id = none := by
  have hmem : ((⟨2, 5, 9, Status.in_progress, some 3, 0⟩ : ChunkRow),
      (⟨2, 5, 9, Status.pending, none, 0⟩ : ChunkRow)) ∈
      List.zip [(⟨1, 1, 4, Status.completed, none, 0⟩ : ChunkRow),
                ⟨2, 5, 9, Status.in_progress, some 3, 0⟩]
        (reset_stale_jobs [(⟨1, 1, 4, Status.completed, none, 0⟩ : ChunkRow),
                ⟨2, 5, 9, Status.in_progress, some 3, 0⟩] 1000 60) := by decide
  have h := (reset_stale_jobs_correct
    [(⟨1, 1, 4, Status.completed, none, 0⟩ : ChunkRow),
     ⟨2, 5, 9, Status.in_progress, some 3, 0⟩] 1000 60 _ hmem).2.1 (by decide)
  exact ⟨hmem, h.1, h.2.1⟩

/-- C9.  `store_batch_async` filters its batch before the insert: every
row the call adds to the table is `rowOf it` for a batch payload `it`
that is a non-empty dict with an `'id'` key, and a batch whose payloads
are all empty or lack `'id'` performs no insert at all. -/
theorem store_batch_async_filters (t : Table) (batch : List Item) :
    (∀ r0 ∈ store_batch_async t batch, r0 ∈ t ∨
      ∃ it ∈ batch, it ≠ [] ∧ hasIdKey it = true ∧ r0 = rowOf it) ∧
    ((∀ it ∈ batch, it = [] ∨ hasIdKey it = false) → store_batch_async t batch = t) := by
  constructor
  · intro r0 h
    rw [store_batch_async_eq] at h
    rcases mem_insertAll h with h1 | h1
    · exact Or.inl h1
    · right
      obtain ⟨it, hit, hrow⟩ := List.mem_map.mp h1
      have hf := List.mem_filter.mp hit
      have hb := hf.2
      rw [Bool.and_eq_true] at hb
      refine ⟨it, hf.1, ?_, hb.2, hrow.symm⟩
      intro hnil
      subst hnil
      exact absurd hb.1 (by decide)
  · intro h
    rw [store_batch_async_eq]
    have hnil : batchRows batch = [] := by
      unfold batchRows
      rw [List.map_eq_nil_iff]
      rw [List.filter_eq_nil_iff]
      intro it hit
      rcases h it hit with h1 | h1
      · subst h1
        decide
      · simp [h1]
    rw [hnil]
    rfl

/-- Witness for C9: a batch of an empty dict and a dict without an id
inserts nothing into an empty table. -/
theorem store_batch_async_filters_witness :
    store_batch_async [] [[], [("type", Value.str "story")]] = [] :=
  (store_batch_async_filters [] [[], [("type", Value.str "story")]]).2 (by decide)

/-- C10 counterexample.  The claim says an empty `kids` list is stored as
NULL.  On the payload `{id: 1, kids: []}` the column expression of
`store_batch_async` evaluates to the raw Python empty list — the falsy
`item.get('kids')` falls into the `else` branch, which returns the value
itself — which is neither NULL nor the string representing an empty
JSON list. -/
theorem kids_empty_list_not_null :
    rowValue [("id", Value.int 1), ("kids", Value.list [])] "kids" = Value.list [] ∧
    Value.list [] ≠ Value.null ∧
    rowValue [("id", Value.int 1), ("kids", Value.list [])] "kids" ≠ Value.str "[]" := by
  decide

/-- C10 amended.  The `kids` column value is the JSON serialization of
the payload's `kids` exactly when that value is truthy (for a list:
present and non-empty); an absent `kids` yields NULL; an empty `kids`
list is passed through as the raw empty list, not NULL and not a JSON
string. -/
theorem kids_column_serialization (it : Item) :
    (truthy (pyGet it "kids") = true →
      rowValue it "kids" = Value.str (jsonDumpsVal (pyGet it "kids"))) ∧
    (pyGet it "kids" = Value.null → rowValue it "kids" = Value.null) ∧
    (pyGet it "kids" = Value.list [] → rowValue it "kids" = Value.list []) := by
  refine ⟨?_, ?_, ?_⟩
  · intro h
    unfold rowValue
    rw [if_pos ⟨rfl, h⟩]
  · intro h
    have hneg : ¬("kids" = "kids" ∧ truthy (pyGet it "kids") = true) := by
      intro hc
      rw [h] at hc
      exact absurd hc.2 (by decide)
    unfold rowValue
    rw [if_neg hneg]
    exact h
  · intro h
    have hneg : ¬("kids" = "kids" ∧ truthy (pyGet it "kids") = true) := by
      intro hc
      rw [h] at hc
      exact absurd hc.2 (by decide)
    unfold rowValue
    rw [if_neg hneg]
    exact h

/-- Witness for C10: a present, non-empty kids list is serialized to its
JSON string. -/
theorem kids_column_serialization_witness :
    rowValue [("kids", Value.list [Value.int 1, Value.int 2])] "kids" =
      Value.str "[1, 2]" := by
  have h := (kids_column_serialization
    [("kids", Value.list [Value.int 1, Value.int 2])]).1 (by decide)
  rw [h]
  rfl

/-! ## Helper lemmas about the per-job loop -/

theorem jobStep_error (resp : Nat → HttpResult) (t : Table) (e : PyError) (grp : List Nat) :
    jobStep resp (t, some e) grp = (t, some e) := rfl

theorem jobStep_raises {resp : Nat → HttpResult} {grp : List Nat} {e : PyError} (t : Table)
    (hg : gatherFetch resp grp = Except.error e) :
    jobStep resp (t, none) grp = (t, some e) := by
  unfold jobStep
  simp only [hg]

theorem jobStep_ok {resp : Nat → HttpResult} {grp : List Nat} {results : List (Option Item)}
    (t : Table) (hg : gatherFetch resp grp = Except.ok results) :
    jobStep resp (t, none) grp =
      (if ((results.filterMap id).filter (fun it => !it.isEmpty)).isEmpty then t
       else store_batch_async t ((results.filterMap id).filter (fun it => !it.isEmpty)), none) := by
  unfold jobStep
  simp only [hg]

theorem runGroups_error (resp : Nat → HttpResult) (groups : List (List Nat)) (t : Table)
    (e : PyError) : runGroups resp groups (t, some e) = (t, some e) := by
  induction groups with
  | nil => rfl
  | cons g gs ih =>
    show runGroups resp gs (jobStep resp (t, some e) g) = (t, some e)
    rw [jobStep_error]
    exact ih

theorem jobStep_table_mono {r0 : List Value} (resp : Nat → HttpResult)
    (acc : Table × Option PyError) (grp : List Nat) (h : r0 ∈ acc.1) :
    r0 ∈ (jobStep resp acc grp).1 := by
  obtain ⟨t, err⟩ := acc
  cases err with
  | some e => exact h
  | none =>
    cases hg : gatherFetch resp grp with
    | error e =>
      rw [jobStep_raises t hg]
      exact h
    | ok results =>
      rw [jobStep_ok t hg]
      dsimp only
      split
      · exact h
      · rw [store_batch_async_eq]
        exact insertAll_mono _ h

theorem runGroups_table_mono {r0 : List Value} (resp : Nat → HttpResult)
    (groups : List (List Nat)) (acc : Table × Option PyError) (h : r0 ∈ acc.1) :
    r0 ∈ (runGroups resp groups acc).1 := by
  induction groups generalizing acc with
  | nil => exact h
  | cons g gs ih => exact ih _ (jobStep_table_mono resp acc g h)

theorem fetch_ok_of_ne {h : HttpResult} (hne : h ≠ HttpResult.badJsonBody) :
    ∃ v, fetch_item_async h = Except.ok v := by
  cases h with
  | badJsonBody => exact absurd rfl hne
  | netError => exact ⟨none, rfl⟩
  | timeout => exact ⟨none, rfl⟩
  | badStatus => exact ⟨none, rfl⟩
  | badContentType => exact ⟨none, rfl⟩
  | jsonNull => exact ⟨none, rfl⟩
  | jsonItem it => exact ⟨some it, rfl⟩

theorem fetch_ok_some {h : HttpResult} {it : Item}
    (he : fetch_item_async h = Except.ok (some it)) : h = HttpResult.jsonItem it := by
  cases h <;> simp [fetch_item_async] at he
  rw [he]

theorem gatherFetch_ok_of {resp : Nat → HttpResult} : ∀ {grp : List Nat},
    (∀ j ∈ grp, resp j ≠ HttpResult.badJsonBody) →
    ∃ vs, gatherFetch resp grp = Except.ok vs := by
  intro grp
  induction grp with
  | nil => intro _; exact ⟨[], rfl⟩
  | cons i is ih =>
    intro h
    obtain ⟨vs, hvs⟩ := ih (fun j hj => h j (List.mem_cons_of_mem i hj))
    obtain ⟨v, hv⟩ := fetch_ok_of_ne (h i (List.mem_cons_self i is))
    refine ⟨v :: vs, ?_⟩
    unfold gatherFetch
    simp only [hv, hvs]

theorem gatherFetch_ok_mem {resp : Nat → HttpResult} : ∀ {grp : List Nat} {vs : List (Option Item)},
    gatherFetch resp grp = Except.ok vs →
    ∀ v ∈ vs, ∃ j ∈ grp, fetch_item_async (resp j) = Except.ok v := by
  intro grp
  induction grp with
  | nil =>
    intro vs h v hv
    have h2 : ([] : List (Option Item)) = vs := by injection h
    subst h2
    cases hv
  | cons i is ih =>
    intro vs h v hv
    unfold gatherFetch at h
    cases hf : fetch_item_async (resp i) with
    | error e =>
      simp only [hf] at h
      exact Except.noConfusion h
    | ok v0 =>
      simp only [hf] at h
      cases hg : gatherFetch resp is with
      | error e =>
        simp only [hg] at h
        exact Except.noConfusion h
      | ok vs0 =>
        simp only [hg] at h
        have h2 : v0 :: vs0 = vs := by injection h
        subst h2
        rcases List.mem_cons.mp hv with h1 | h1
        · exact ⟨i, List.mem_cons_self i is, by rw [h1]; exact hf⟩
        · obtain ⟨j, hj, hjf⟩ := ih hg v h1
          exact ⟨j, List.mem_cons_of_mem i hj, hjf⟩

theorem mem_runGroups {resp : Nat → HttpResult} {r0 : List Value} :
    ∀ {groups : List (List Nat)} {acc : Table × Option PyError},
    r0 ∈ (runGroups resp groups acc).1 →
    r0 ∈ acc.1 ∨
      ∃ g ∈ groups, ∃ it, (∃ j ∈ g, resp j = HttpResult.jsonItem it) ∧ r0 = rowOf it := by
  intro groups
  induction groups with
  | nil => intro acc h; exact Or.inl h
  | cons g gs ih =>
    intro acc h
    rw [show runGroups resp (g :: gs) acc = runGroups resp gs (jobStep resp acc g) from rfl] at h
    rcases ih h with h2 | h2
    · obtain ⟨t, err⟩ := acc
      cases err with
      | some e => exact Or.inl h2
      | none =>
        cases hg : gatherFetch resp g with
        | error e =>
          rw [jobStep_raises t hg] at h2
          exact Or.inl h2
        | ok results =>
          rw [jobStep_ok t hg] at h2
          dsimp only at h2
          by_cases hemp : ((results.filterMap id).filter (fun it => !it.isEmpty)).isEmpty
          · rw [if_pos hemp] at h2
            exact Or.inl h2
          · rw [if_neg hemp] at h2
            rw [store_batch_async_eq] at h2
            rcases mem_insertAll h2 with h3 | h3
            · exact Or.inl h3
            · right
              obtain ⟨it, hit, hrow⟩ := List.mem_map.mp h3
              have h4 := List.mem_filter.mp hit
              have h5 := List.mem_filter.mp h4.1
              have hsome : some it ∈ results := by
                obtain ⟨a, ha, hae⟩ := List.mem_filterMap.mp h5.1
                rw [show a = some it from hae] at ha
                exact ha
              obtain ⟨j, hj, hjf⟩ := gatherFetch_ok_mem hg (some it) hsome
              exact ⟨g, List.mem_cons_self g gs, it, ⟨j, hj, fetch_ok_some hjf⟩, hrow.symm⟩
    · obtain ⟨g', hg', rest⟩ := h2
      exact Or.inr ⟨g', List.mem_cons_of_mem g hg', rest⟩

theorem runGroups_noerr {resp : Nat → HttpResult} :
    ∀ {groups : List (List Nat)} (t : Table),
    (∀ g ∈ groups, ∀ j ∈ g, resp j ≠ HttpResult.badJsonBody) →
    (runGroups resp groups (t, none)).2 = none := by
  intro groups
  induction groups with
  | nil => intro t _; rfl
  | cons g gs ih =>
    intro t h
    obtain ⟨vs, hvs⟩ := gatherFetch_ok_of (h g (List.mem_cons_self g gs))
    show (runGroups resp gs (jobStep resp (t, none) g)).2 = none
    rw [jobStep_ok t hvs]
    exact ih _ (fun g' hg' => h g' (List.mem_cons_of_mem g hg'))

theorem mem_of_mem_gatherGroups {ids : List Nat} {g : List Nat}
    (hg : g ∈ gatherGroups ids) {j : Nat} (hj : j ∈ g) : j ∈ ids := by
  unfold gatherGroups at hg
  obtain ⟨i, _, hi⟩ := List.mem_map.mp hg
  rw [← hi] at hj
  exact List.drop_subset i ids (List.take_subset _ _ hj)

theorem keyOf_rowOf (it : Item) : keyOf (rowOf it) = some (pyGet it "id") := by
  have h : rowValue it "id" = pyGet it "id" := by
    unfold rowValue
    rw [if_neg]
    intro hc
    exact absurd hc.1 (by decide)
  simp [rowOf, columns, keyOf, h]

theorem processJob_table (resp : Nat → HttpResult) (startId endId : Nat) (t0 : Table) :
    (processJob resp startId endId t0).table =
      (runGroups resp (gatherGroups (List.range' startId (endId + 1 - startId))) (t0, none)).1 := by
  unfold processJob
  rcases h : runGroups resp (gatherGroups (List.range' startId (endId + 1 - startId))) (t0, none)
    with ⟨tbl, err⟩
  cases err <;> simp [h]

theorem runGroups_idem (resp : Nat → HttpResult) :
    ∀ (groups : List (List Nat)) (t : Table),
    (runGroups resp groups ((runGroups resp groups (t, none)).1, none)).1 =
      (runGroups resp groups (t, none)).1 := by
  intro groups
  induction groups with
  | nil => intro t; rfl
  | cons g gs ih =>
    intro t
    cases hg : gatherFetch resp g with
    | error e =>
      have h2 : runGroups resp (g :: gs) (t, none) = (t, some e) := by
        show runGroups resp gs (jobStep resp (t, none) g) = (t, some e)
        rw [jobStep_raises t hg]
        exact runGroups_error resp gs t e
      rw [h2]
      show (runGroups resp (g :: gs) (t, none)).1 = t
      rw [h2]
    | ok results =>
      by_cases hemp : ((results.filterMap id).filter (fun it => !it.isEmpty)).isEmpty
      · have hstepAny : ∀ u : Table, jobStep resp (u, none) g = (u, none) := by
          intro u
          rw [jobStep_ok u hg, if_pos hemp]
        have e1 : runGroups resp (g :: gs) (t, none) = runGroups resp gs (t, none) := by
          show runGroups resp gs (jobStep resp (t, none) g) = _
          rw [hstepAny t]
        have e2 : runGroups resp (g :: gs) ((runGroups resp gs (t, none)).1, none)
            = runGroups resp gs ((runGroups resp gs (t, none)).1, none) := by
          show runGroups resp gs (jobStep resp (_, none) g) = _
          rw [hstepAny]
        rw [e1, e2]
        exact ih t
      · have hstepAny : ∀ u : Table,
            jobStep resp (u, none) g
              = (store_batch_async u ((results.filterMap id).filter (fun it => !it.isEmpty)),
                 none) := by
          intro u
          rw [jobStep_ok u hg, if_neg hemp]
        have e1 : runGroups resp (g :: gs) (t, none)
            = runGroups resp gs
                (store_batch_async t ((results.filterMap id).filter (fun it => !it.isEmpty)),
                 none) := by
          show runGroups resp gs (jobStep resp (t, none) g) = _
          rw [hstepAny t]
        have hkeysT : ∀ row ∈ batchRows ((results.filterMap id).filter (fun it => !it.isEmpty)),
            ∃ r ∈ (runGroups resp gs
              (store_batch_async t ((results.filterMap id).filter (fun it => !it.isEmpty)),
               none)).1,
              keyOf r = keyOf row := by
          intro row hrow
          have hk1 : ∃ r ∈ store_batch_async t
              ((results.filterMap id).filter (fun it => !it.isEmpty)),
              keyOf r = keyOf row := by
            rw [store_batch_async_eq]
            exact insertAll_keys t row hrow
          obtain ⟨r, hr, hk⟩ := hk1
          exact ⟨r, runGroups_table_mono resp gs _ hr, hk⟩
        have hstoreT : store_batch_async (runGroups resp gs
              (store_batch_async t ((results.filterMap id).filter (fun it => !it.isEmpty)),
               none)).1
              ((results.filterMap id).filter (fun it => !it.isEmpty))
            = (runGroups resp gs
              (store_batch_async t ((results.filterMap id).filter (fun it => !it.isEmpty)),
               none)).1 := by
          rw [store_batch_async_eq]
          exact insertAll_noop hkeysT
        have e2 : runGroups resp (g :: gs)
              ((runGroups resp gs
                (store_batch_async t ((results.filterMap id).filter (fun it => !it.isEmpty)),
                 none)).1, none)
            = runGroups resp gs
              ((runGroups resp gs
                (store_batch_async t ((results.filterMap id).filter (fun it => !it.isEmpty)),
                 none)).1, none) := by
          show runGroups resp gs (jobStep resp (_, none) g) = _
          rw [hstepAny, hstoreT]
        rw [e1, e2]
        exact ih (store_batch_async t ((results.filterMap id).filter (fun it => !it.isEmpty)))

/-- C3.  Running the per-job pipeline twice over the same chunk with
identical upstream responses leaves the `items` table exactly as one run
left it: every insert goes through `insertRow`, the
insert-on-conflict-do-nothing keyed on `id`, so the second run's inserts
all hit existing ids and change no row.  This holds for every chunk,
every upstream behaviour (including failures) and every starting
table. -/
theorem pipeline_idempotent (resp : Nat → HttpResult) (startId endId : Nat) (t : Table) :
    (processJob resp startId endId (processJob resp startId endId t).table).table =
      (processJob resp startId endId t).table := by
  simp only [processJob_table]
  exact runGroups_idem resp _ t

/-- C6 counterexample.  The claim says a payload that fails to parse is
treated as "no result" and the chunk still completes.  A body that fails
JSON decoding raises `json.JSONDecodeError`, which the `except
(aiohttp.ClientError, asyncio.TimeoutError)` clause of
`fetch_item_async` does not catch: on the one-id chunk `[1,1]` whose
fetch ends in `badJsonBody`, the fetch raises instead of yielding no
result and the chunk is not marked completed. -/
theorem parse_failure_aborts_chunk :
    fetch_item_async HttpResult.badJsonBody = Except.error PyError.jsonDecodeError ∧
    (processJob (fun _ => HttpResult.badJsonBody) 1 1 []).completed = false :=
  ⟨rfl, rfl⟩

/-- C6 amended.  For every id in a claimed chunk whose fetch ends in a
transient network error, a timeout, a non-2xx response, a content-type
parse failure, or a JSON `null`, the fetch yields no result and no
`items` row with that id is added — and provided no id of the chunk
returns a body that fails JSON decoding (the one uncaught parse error),
the worker still marks the chunk completed.  `hid` is the upstream API
contract that an object returned for id `i` carries `id = i`. -/
theorem fetch_failures_are_skipped (resp : Nat → HttpResult) (startId endId : Nat) (t : Table)
    (hid : ∀ i it, resp i = HttpResult.jsonItem it → pyGet it "id" = Value.int i)
    (hparse : ∀ i ∈ List.range' startId (endId + 1 - startId),
      resp i ≠ HttpResult.badJsonBody) :
    (processJob resp startId endId t).completed = true ∧
    (∀ i, noResultOutcome (resp i) = true → fetch_item_async (resp i) = Except.ok none) ∧
    (∀ i ∈ List.range' startId (endId + 1 - startId), noResultOutcome (resp i) = true →
      ((∃ r ∈ (processJob resp startId endId t).table, keyOf r = some (Value.int i)) ↔
        (∃ r ∈ t, keyOf r = some (Value.int i)))) := by
  have hgroups : ∀ g ∈ gatherGroups (List.range' startId (endId + 1 - startId)),
      ∀ j ∈ g, resp j ≠ HttpResult.badJsonBody :=
    fun g hg j hj => hparse j (mem_of_mem_gatherGroups hg hj)
  refine ⟨?_, ?_, ?_⟩
  · have herr := runGroups_noerr t hgroups
    unfold processJob
    rcases h : runGroups resp (gatherGroups (List.range' startId (endId + 1 - startId)))
      (t, none) with ⟨tbl, err⟩
    rw [h] at herr
    cases err with
    | none => rfl
    | some e => simp at herr
  · intro i hno
    cases hri : resp i with
    | netError => rfl
    | timeout => rfl
    | badStatus => rfl
    | badContentType => rfl
    | jsonNull => rfl
    | badJsonBody =>
      rw [hri] at hno
      exact absurd hno (by decide)
    | jsonItem it =>
      rw [hri] at hno
      simp [noResultOutcome] at hno
  · intro i hi hno
    rw [processJob_table]
    constructor
    · rintro ⟨r, hr, hk⟩
      rcases mem_runGroups hr with h1 | h1
      · exact ⟨r, h1, hk⟩
      · exfalso
        obtain ⟨g, hgm, it, ⟨j, hj, hjr⟩, hreq⟩ := h1
        rw [hreq, keyOf_rowOf, hid j it hjr] at hk
        have h2 : (j : Int) = (i : Int) := by
          have h3 := Option.some.inj hk
          injection h3
        have hji : j = i := by exact_mod_cast h2
        rw [hji] at hjr
        rw [hjr] at hno
        simp [noResultOutcome] at hno
    · rintro ⟨r, hr, hk⟩
      exact ⟨r, runGroups_table_mono resp _ (t, none) hr, hk⟩

/-- Witness for C6: a chunk `[1,3]` whose id 1 returns an object and
whose other ids fail with network errors is still marked completed. -/
theorem fetch_failures_are_skipped_witness :
    (processJob demoResp 1 3 []).completed = true := by
  have hid : ∀ (i : Nat) (it : Item), demoResp i = HttpResult.jsonItem it →
      pyGet it "id" = Value.int i := by
    intro i it hit
    unfold demoResp at hit
    by_cases hi : i = 1
    · subst hi
      rw [if_pos rfl] at hit
      have h2 : ([("id", Value.int 1)] : Item) = it := by injection hit
      rw [← h2]
      decide
    · rw [if_neg hi] at hit
      exact HttpResult.noConfusion hit
  have hparse : ∀ i ∈ List.range' 1 (3 + 1 - 1), demoResp i ≠ HttpResult.badJsonBody := by
    intro i _
    unfold demoResp
    by_cases hi : i = 1
    · rw [if_pos hi]
      exact fun hc => HttpResult.noConfusion hc
    · rw [if_neg hi]
      exact fun hc => HttpResult.noConfusion hc
  exact (fetch_failures_are_skipped demoResp 1 3 [] hid hparse).1

/-- C8.  In every execution of the worker frame — a normal loop exit on
the "none available" sentinel, an `Exception` escaping per-chunk
processing (caught and logged), or an external `BaseException` — the
`finally` clause closes the store connection before the top-level frame
exits, and no unhandled exception propagates out of the frame unless it
is an external `BaseException`; in particular nothing ever escapes with
the connection still open. -/
theorem worker_main_async_closes (steps : List ClaimStep) (interrupt : Bool) :
    (worker_main_async steps interrupt).connClosed = true ∧
    (worker_main_async steps false).escaped = false := by
  cases h : runBody steps <;> cases interrupt <;> simp [worker_main_async, h]

end HN
